import Mathlib

/-!
Verification development for `deepchem/feat/smiles_tokenizer.py`.

The file embeds, as executable Lean definitions, the SMILES regex tokenizer
(`SMI_REGEX_PATTERN` + `BasicSmilesTokenizer.tokenize`), the vocabulary loader
(`load_vocab`) and the vocabulary-indexed helper methods of `SmilesTokenizer`
(`_convert_token_to_id`, `_convert_id_to_token`, `convert_tokens_to_string`,
`add_special_tokens_ids_single_sequence`, `add_special_tokens_ids_sequence_pair`,
`add_padding_tokens`, and the `highest_unused_index` computation of `__init__`),
and proves the specified properties about them.

A central point of the embedding: in the Python source the pattern constant is a
triple-quoted raw string that is broken across two physical lines between the
alternatives `=` and `#`.  The resulting pattern therefore contains a literal
newline character, so the alternative that was presumably meant to be `#` is in
fact the two-character alternative `"\n#"`.  The embedding reproduces this
faithfully: a bare `'#'` matches no alternative and is silently skipped by
`findall`, while the two-character sequence newline-then-`'#'` is one token.
-/

/-- The single-character alternatives of `SMI_REGEX_PATTERN` other than the
optionally-two-character ones (`Br?`, `Cl?`, `>>?`), the newline-prefixed
`"\n#"`, the two-digit `%NN` alternative and the final `[0-9]` class:
`N|O|S|P|F|I|b|c|n|o|s|p|\(|\)|\.|=|-|\+|\\|\/|:|~|@|\?|\*|\$`. -/
def singleTokChars : List Char :=
  ['N', 'O', 'S', 'P', 'F', 'I', 'b', 'c', 'n', 'o', 's', 'p',
   '(', ')', '.', '=', '-', '+', '\\', '/', ':', '~', '@', '?', '*', '$']

/-- `closeTerminated cs` holds when `cs = inner ++ [']']` where `inner` contains
no `']'`.  This is the shape matched by `[^\]]+]` when `inner` is nonempty. -/
def closeTerminated : List Char → Bool
  | [] => false
  | [c] => c == ']'
  | c :: rest => !(c == ']') && closeTerminated rest

/-- `isBracketTok t` holds when `t` is a full match of the bracket-atom
alternative `\[[^\]]+]`: an opening `'['`, at least one character that is not
`']'`, and a closing `']'`. -/
def isBracketTok (t : List Char) : Bool :=
  match t with
  | a :: b :: cs => a == '[' && !(b == ']') && closeTerminated (b :: cs)
  | _ => false

/-- The alternatives of the pattern that are fixed strings of length one or two
with an optional second letter, plus the (accidentally) newline-prefixed `#`:
`Br?`, `Cl?`, the literal `"\n#"` of the line-broken pattern, and `>>?`. -/
def fixedToks : List (List Char) :=
  [['B'], ['B', 'r'], ['C'], ['C', 'l'], ['\n', '#'], ['>'], ['>', '>']]

/-- A full match of the two-digit ring-bond alternative `\%[0-9]{2}`. -/
def isPercentTok (t : List Char) : Bool :=
  match t with
  | [a, c1, c2] => a == '%' && c1.isDigit && c2.isDigit
  | _ => false

/-- A full match of one of the single-character alternatives, including the
final `[0-9]` class. -/
def isSingleTok (t : List Char) : Bool :=
  match t with
  | [c] => singleTokChars.contains c || c.isDigit
  | _ => false

/-- `IsTok t` holds exactly when `t` is the full text of one alternative of
`SMI_REGEX_PATTERN` (with the literal newline of the source pattern, i.e. the
`#` alternative is the two-character string `"\n#"`). -/
def IsTok (t : List Char) : Bool :=
  isBracketTok t || fixedToks.contains t || isPercentTok t || isSingleTok t

/-- A character list is `Covered` if it is a concatenation of full matches of
the actual alternatives of the compiled pattern. -/
inductive Covered : List Char → Prop where
  | nil : Covered []
  | cons (t r : List Char) (ht : IsTok t = true) (hr : Covered r) : Covered (t ++ r)

/-- `SpecIsTok` follows the specification's wording of the alternative list,
which names a plain `#` alternative (the spec does not mention the newline that
the source pattern actually contains before `#`).  All other alternatives are
as in `IsTok`. -/
def SpecIsTok (t : List Char) : Bool :=
  isBracketTok t ||
    [['B'], ['B', 'r'], ['C'], ['C', 'l'], ['>'], ['>', '>']].contains t ||
    isPercentTok t ||
    (match t with
     | [c] => singleTokChars.contains c || c == '#' || c.isDigit
     | _ => false)

/-- A character list composed only of matches of the alternatives as the
specification lists them (with a standalone `#`). -/
inductive SpecCovered : List Char → Prop where
  | nil : SpecCovered []
  | cons (t r : List Char) (ht : SpecIsTok t = true) (hr : SpecCovered r) :
      SpecCovered (t ++ r)

/-- Attempt to match the bracket-atom alternative `\[[^\]]+]` given the text
`cs` that follows an opening `'['`: greedily take the characters that are not
`']'`; the match succeeds if at least one such character was taken and a `']'`
follows.  Returns the matched token together with the remaining text. -/
def matchBracketAtom (cs : List Char) : Option (List Char × List Char) :=
  match cs.dropWhile (fun c => c != ']') with
  | b :: rest =>
    let inner := cs.takeWhile (fun c => c != ']')
    if inner.isEmpty then none else some ('[' :: (inner ++ [b]), rest)
  | [] => none

/-- One attempted match of the full alternation of `SMI_REGEX_PATTERN` at the
start of `s`, following Python's leftmost-alternative-first semantics with a
greedy `?`.  Since distinct alternatives of the pattern begin with distinct
first characters, the alternation is dispatched on the first character; within
one starting character the longer variant (`Br`, `Cl`, `>>`) is preferred,
exactly as the greedy `r?`/`l?`/`>?` does.  The `#` alternative of the source
pattern carries the literal newline of the broken string literal, so it is
reachable only when the text contains an actual newline followed by `'#'`. -/
def matchAt : List Char → Option (List Char × List Char)
  | [] => none
  | c :: cs =>
    if c = '[' then matchBracketAtom cs
    else if c = 'B' then
      if cs.head? = some 'r' then some (['B', 'r'], cs.tail) else some (['B'], cs)
    else if c = 'C' then
      if cs.head? = some 'l' then some (['C', 'l'], cs.tail) else some (['C'], cs)
    else if singleTokChars.contains c then some ([c], cs)
    else if c = '\n' then
      if cs.head? = some '#' then some (['\n', '#'], cs.tail) else none
    else if c = '>' then
      if cs.head? = some '>' then some (['>', '>'], cs.tail) else some (['>'], cs)
    else if c = '%' then
      match cs with
      | c1 :: c2 :: rest =>
        if c1.isDigit && c2.isDigit then some (['%', c1, c2], rest) else none
      | _ => none
    else if c.isDigit then some ([c], cs)
    else none

/-- The scanning loop of `re.findall`: at each position try to match the
pattern; on success emit the match and continue after it, on failure advance by
one character.  `fuel` bounds the number of scanning steps; every step consumes
at least one character, so `s.length` steps always suffice. -/
def findTokensF : Nat → List Char → List (List Char)
  | 0, _ => []
  | _ + 1, [] => []
  | fuel + 1, c :: cs =>
    match matchAt (c :: cs) with
    | some (tok, rest) => tok :: findTokensF fuel rest
    | none => findTokensF fuel cs

/-- `re.findall(SMI_REGEX_PATTERN, s)` over a character list. -/
def findTokens (s : List Char) : List (List Char) :=
  findTokensF s.length s

/-- `BasicSmilesTokenizer.tokenize`: `self.regex.findall(text)` for the
compiled `SMI_REGEX_PATTERN`. -/
def BasicSmilesTokenizer.tokenize (text : String) : List String :=
  (findTokens text.data).map (fun t => String.mk t)

/-- Concatenation of a list of token texts. -/
def tokensJoin (ts : List (List Char)) : List Char :=
  ts.foldr (fun t acc => t ++ acc) []


/-! ## Vocabulary model

Python `dict` / `collections.OrderedDict` with string (or integer) keys is
modelled as an association list with unique keys: assignment `d[k] = v`
overwrites the value in place when `k` is already a key and appends `(k, v)`
otherwise (insertion order is preserved, as for Python dictionaries), and
`d.get(k)` looks the key up. -/

/-- `k in d` for the association-list dictionary model. -/
def containsKey {κ β : Type} [BEq κ] (d : List (κ × β)) (k : κ) : Bool :=
  d.any (fun p => p.1 == k)

/-- `d[k] = v`: overwrite in place if the key exists, else append. -/
def dictInsert {κ β : Type} [BEq κ] (d : List (κ × β)) (k : κ) (v : β) :
    List (κ × β) :=
  if containsKey d k then d.map (fun p => if p.1 == k then (k, v) else p)
  else d ++ [(k, v)]

/-- `d.get(k)`: `some` of the stored value when present, else `none`. -/
def dictGet {κ β : Type} [BEq κ] (d : List (κ × β)) (k : κ) : Option β :=
  (d.find? (fun p => p.1 == k)).map (fun p => p.2)

/-- Python `token.rstrip("\n")`: remove every trailing newline character. -/
def rstripNewlines (s : String) : String :=
  String.mk ((s.data.reverse.dropWhile (fun c => c == '\n')).reverse)

/-- The loop body of `load_vocab`:
`for index, token in enumerate(tokens): vocab[token.rstrip("\n")] = index`,
with `i` the current value of `index` and `d` the dictionary built so far. -/
def loadVocabAux : List (String × Nat) → Nat → List String → List (String × Nat)
  | d, _, [] => d
  | d, i, line :: rest => loadVocabAux (dictInsert d (rstripNewlines line) i) (i + 1) rest

/-- `load_vocab`, taking the list of lines returned by `readlines()` (each line
carries its trailing newline, except possibly the last). -/
def load_vocab (lines : List String) : List (String × Nat) :=
  loadVocabAux [] 0 lines

/-- Pairs each element with its index, starting from `i`; the building block of
the specification-side description of `load_vocab` and of `enumerate` in
`highest_unused_index`. -/
def withIdxFrom {α : Type} : Nat → List α → List (α × Nat)
  | _, [] => []
  | i, t :: ts => (t, i) :: withIdxFrom (i + 1) ts

/-- Modelled from the spec: `load` yields one entry per line, the line (with
its trailing newline stripped) keyed to its zero-based line index. -/
def vocabOfLinesSpec (lines : List String) : List (String × Nat) :=
  withIdxFrom 0 (lines.map (fun l => rstripNewlines l))

/-- `SmilesTokenizer.ids_to_tokens`:
`OrderedDict([(ids, tok) for tok, ids in self.vocab.items()])`. -/
def SmilesTokenizer.ids_to_tokens (vocab : List (String × Nat)) :
    List (Nat × String) :=
  vocab.foldl (fun d p => dictInsert d p.2 p.1) []

/-- `SmilesTokenizer._convert_token_to_id`:
`self.vocab.get(token, self.vocab.get(self.unk_token))`.  The result is the
stored id as `some`, or `none` when neither the token nor the unknown token is
a key (Python would return `None` there). -/
def SmilesTokenizer.convert_token_to_id (vocab : List (String × Nat))
    (unk_token token : String) : Option Nat :=
  match dictGet vocab token with
  | some v => some v
  | none => dictGet vocab unk_token

/-- `SmilesTokenizer._convert_id_to_token`:
`self.ids_to_tokens.get(index, self.unk_token)`. -/
def SmilesTokenizer.convert_id_to_token (vocab : List (String × Nat))
    (unk_token : String) (index : Nat) : String :=
  (dictGet (SmilesTokenizer.ids_to_tokens vocab) index).getD unk_token

/-- Python `" ".join(tokens)`: the tokens in order with a single space between
consecutive tokens. -/
def joinWithSpaceSep : List String → String
  | [] => ""
  | [t] => t
  | t :: ts => t ++ " " ++ joinWithSpaceSep ts

/-- Python `s.replace(" ##", "")`: scan left to right; whenever the next three
characters are `' '`, `'#'`, `'#'`, drop them and resume scanning after them,
otherwise keep one character and continue. -/
def removeSubwordMarker : List Char → List Char
  | ' ' :: '#' :: '#' :: rest => removeSubwordMarker rest
  | c :: rest => c :: removeSubwordMarker rest
  | [] => []

/-- The characters Python `str.strip()` removes (ASCII whitespace). -/
def isPyWhitespace (c : Char) : Bool :=
  c == ' ' || c == '\t' || c == '\n' || c == '\r' || c == '\x0b' || c == '\x0c'

/-- Python `s.strip()`: drop leading and trailing whitespace. -/
def pyStrip (s : List Char) : List Char :=
  ((s.dropWhile isPyWhitespace).reverse.dropWhile isPyWhitespace).reverse

/-- `SmilesTokenizer.convert_tokens_to_string`:
`" ".join(tokens).replace(" ##", "").strip()`. -/
def SmilesTokenizer.convert_tokens_to_string (tokens : List String) : String :=
  String.mk (pyStrip (removeSubwordMarker (joinWithSpaceSep tokens).data))

/-- `SmilesTokenizer.add_special_tokens_ids_single_sequence`:
`[self.cls_token_id] + token_ids + [self.sep_token_id]`. -/
def SmilesTokenizer.add_special_tokens_ids_single_sequence
    (cls_token_id sep_token_id : Nat) (token_ids : List Nat) : List Nat :=
  [cls_token_id] ++ token_ids ++ [sep_token_id]

/-- `SmilesTokenizer.add_special_tokens_ids_sequence_pair`:
`cls + token_ids_0 + sep + token_ids_1 + sep`. -/
def SmilesTokenizer.add_special_tokens_ids_sequence_pair
    (cls_token_id sep_token_id : Nat) (token_ids_0 token_ids_1 : List Nat) :
    List Nat :=
  let sep := [sep_token_id]
  let cls := [cls_token_id]
  cls ++ token_ids_0 ++ sep ++ token_ids_1 ++ sep

/-- `SmilesTokenizer.add_padding_tokens`:
`padding = [self.pad_token_id] * (length - len(token_ids))`, then
`token_ids + padding` when `right` else `padding + token_ids`.  Python list
repetition with a non-positive count yields the empty list, which truncated
`Nat` subtraction mirrors exactly. -/
def SmilesTokenizer.add_padding_tokens (pad_token_id : Nat)
    (token_ids : List Nat) (length : Nat) (right : Bool) : List Nat :=
  let padding := List.replicate (length - token_ids.length) pad_token_id
  if right then token_ids ++ padding else padding ++ token_ids

/-- Python `v.startswith("[unused")`. -/
def startsWithUnused (v : String) : Bool :=
  List.isPrefixOf "[unused".data v.data

/-- Python `max` over a list of naturals: `none` models the `ValueError` that
`max` raises on an empty sequence. -/
def maxNat? : List Nat → Option Nat
  | [] => none
  | n :: ns =>
    match maxNat? ns with
    | none => some n
    | some m => some (Nat.max n m)

/-- The `highest_unused_index` computation of `SmilesTokenizer.__init__`:
`max([i for i, v in enumerate(self.vocab.keys()) if v.startswith("[unused")])`,
with `none` for the raising `max([])` case. -/
def SmilesTokenizer.highest_unused_index (vocab : List (String × Nat)) :
    Option Nat :=
  maxNat?
    (((withIdxFrom 0 (vocab.map Prod.fst)).filter
        (fun p => startsWithUnused p.1)).map (fun p => p.2))


/-! ## Tokenizer lemmas -/

/-- `IsTok` rejects the empty string: every alternative consumes at least one
character. -/
lemma isTok_nil_false : IsTok [] = false := by decide

/-- Shape inversion for `closeTerminated`. -/
lemma closeTerminated_shape (cs : List Char) (h : closeTerminated cs = true) :
    ∃ inner, cs = inner ++ [']'] ∧ ∀ c ∈ inner, c ≠ ']' := by
  induction cs with
  | nil => simp [closeTerminated] at h
  | cons c rest ih =>
    cases rest with
    | nil =>
      simp only [closeTerminated, beq_iff_eq] at h
      exact ⟨[], by simp [h], by simp⟩
    | cons d rest2 =>
      simp only [closeTerminated, Bool.and_eq_true, Bool.not_eq_true',
        beq_eq_false_iff_ne, ne_eq] at h
      obtain ⟨inner, heq, hni⟩ := ih h.2
      refine ⟨c :: inner, by simp [heq], ?_⟩
      intro x hx
      rcases List.mem_cons.mp hx with rfl | hx
      · exact h.1
      · exact hni x hx

/-- Shape inversion for the bracket-atom alternative. -/
lemma isBracketTok_shape (t : List Char) (h : isBracketTok t = true) :
    ∃ inner, inner ≠ [] ∧ (∀ c ∈ inner, c ≠ ']') ∧ t = '[' :: (inner ++ [']']) := by
  match t with
  | [] => simp [isBracketTok] at h
  | [a] => simp [isBracketTok] at h
  | a :: b :: cs =>
    simp only [isBracketTok, Bool.and_eq_true, beq_iff_eq, Bool.not_eq_true',
      beq_eq_false_iff_ne, ne_eq] at h
    obtain ⟨⟨ha, hb⟩, hct⟩ := h
    obtain ⟨inner, heq, hni⟩ := closeTerminated_shape _ hct
    refine ⟨inner, ?_, hni, by rw [ha, ← heq]⟩
    intro hinner
    rw [hinner] at heq
    simp at heq
    exact hb heq.1

/-- Shape inversion for `IsTok`: a full alternative match is a bracket atom, a
fixed token, a `%NN` token, or a single covered character. -/
lemma isTok_shapes (t : List Char) (h : IsTok t = true) :
    (∃ inner, inner ≠ [] ∧ (∀ c ∈ inner, c ≠ ']') ∧ t = '[' :: (inner ++ [']'])) ∨
    t ∈ fixedToks ∨
    (∃ c1 c2, c1.isDigit = true ∧ c2.isDigit = true ∧ t = ['%', c1, c2]) ∨
    (∃ c, (singleTokChars.contains c || c.isDigit) = true ∧ t = [c]) := by
  simp only [IsTok, Bool.or_eq_true] at h
  rcases h with ((hb | hf) | hp) | hs
  · exact Or.inl (isBracketTok_shape t hb)
  · exact Or.inr (Or.inl (List.elem_iff.mp hf))
  · refine Or.inr (Or.inr (Or.inl ?_))
    match t, hp with
    | [a, c1, c2], hp =>
      simp only [isPercentTok, Bool.and_eq_true, beq_iff_eq] at hp
      exact ⟨c1, c2, hp.1.2, hp.2, by rw [hp.1.1]⟩
  · refine Or.inr (Or.inr (Or.inr ?_))
    match t, hs with
    | [c], hs =>
      simp only [isSingleTok] at hs
      exact ⟨c, hs, rfl⟩

/-- Inversion of the `Covered` predicate. -/
lemma covered_inv (s : List Char) (h : Covered s) :
    s = [] ∨ ∃ t r, IsTok t = true ∧ Covered r ∧ s = t ++ r := by
  cases h with
  | nil => exact Or.inl rfl
  | cons t r ht hr => exact Or.inr ⟨t, r, ht, hr, rfl⟩

/-- The characters that can begin a match of some alternative. -/
def firstCharOK (c : Char) : Bool :=
  c == '[' || c == 'B' || c == 'C' || singleTokChars.contains c ||
    c == '\n' || c == '>' || c == '%' || c.isDigit

/-- Every alternative's text begins with a character in the inventory. -/
lemma isTok_first (c : Char) (t : List Char) (h : IsTok (c :: t) = true) :
    firstCharOK c = true := by
  rcases isTok_shapes _ h with ⟨inner, _, _, heq⟩ | hf | ⟨c1, c2, _, _, heq⟩ | ⟨d, hd, heq⟩
  · rw [List.cons.injEq] at heq
    rw [heq.1]; decide
  · simp only [fixedToks, List.mem_cons, List.not_mem_nil, or_false] at hf
    rcases hf with h' | h' | h' | h' | h' | h' | h' <;>
      (rw [List.cons.injEq] at h'; rw [h'.1]; decide)
  · rw [List.cons.injEq] at heq
    rw [heq.1]; decide
  · rw [List.cons.injEq] at heq
    obtain ⟨rfl, -⟩ := heq
    simp only [firstCharOK, Bool.or_eq_true] at hd ⊢
    tauto

/-- A nonempty covered text begins with a character in the inventory. -/
lemma covered_first (c : Char) (xs : List Char) (h : Covered (c :: xs)) :
    firstCharOK c = true := by
  rcases covered_inv _ h with heq | ⟨t, r, ht, _, heq⟩
  · exact absurd heq (by simp)
  · match t, ht, heq with
    | [], ht, heq => exact absurd ht (by decide)
    | c' :: t', ht, heq =>
      rw [List.cons_append, List.cons.injEq] at heq
      exact heq.1 ▸ isTok_first c' t' ht

/-- A member of the single-character alternative list is none of the dispatch
characters handled earlier in `matchAt`. -/
lemma contains_singletok_ne (c : Char) (h : singleTokChars.contains c = true) :
    c ≠ '[' ∧ c ≠ 'B' ∧ c ≠ 'C' := by
  refine ⟨?_, ?_, ?_⟩ <;> (rintro rfl; revert h; decide)

/-- No single-character alternative is a digit. -/
lemma mem_singleTokChars_not_digit (c : Char) (hmem : c ∈ singleTokChars) :
    c.isDigit = false := by
  fin_cases hmem <;> decide

/-- A digit is none of the dispatch characters handled earlier in `matchAt`,
and is not in the single-character alternative list. -/
lemma digit_ne (c : Char) (h : c.isDigit = true) :
    c ≠ '[' ∧ c ≠ 'B' ∧ c ≠ 'C' ∧ singleTokChars.contains c = false ∧
      c ≠ '\n' ∧ c ≠ '>' ∧ c ≠ '%' := by
  refine ⟨?_, ?_, ?_, ?_, ?_, ?_, ?_⟩
  · rintro rfl; revert h; decide
  · rintro rfl; revert h; decide
  · rintro rfl; revert h; decide
  · cases hb : singleTokChars.contains c with
    | false => rfl
    | true =>
      have hmem : c ∈ singleTokChars := List.elem_iff.mp hb
      rw [mem_singleTokChars_not_digit c hmem] at h
      exact absurd h (by decide)
  · rintro rfl; revert h; decide
  · rintro rfl; revert h; decide
  · rintro rfl; revert h; decide

/-- A token starting with `'>'` is `>` or `>>`. -/
lemma isTok_gt (t' : List Char) (h : IsTok ('>' :: t') = true) :
    t' = [] ∨ t' = ['>'] := by
  rcases isTok_shapes _ h with ⟨inner, _, _, heq⟩ | hf | ⟨c1, c2, _, _, heq⟩ | ⟨d, _, heq⟩
  · rw [List.cons.injEq] at heq
    exact absurd heq.1 (by decide)
  · simp only [fixedToks, List.mem_cons, List.not_mem_nil, or_false] at hf
    rcases hf with h' | h' | h' | h' | h' | h' | h' <;> rw [List.cons.injEq] at h'
    · exact absurd h'.1 (by decide)
    · exact absurd h'.1 (by decide)
    · exact absurd h'.1 (by decide)
    · exact absurd h'.1 (by decide)
    · exact absurd h'.1 (by decide)
    · exact Or.inl h'.2
    · exact Or.inr h'.2
  · rw [List.cons.injEq] at heq
    exact absurd heq.1 (by decide)
  · rw [List.cons.injEq] at heq
    exact Or.inl heq.2

/-- Dropping a leading `'>'` from a covered text leaves a covered text: the
`'>'` was either a full `>` token or the first half of a `>>` token, and in the
latter case the remaining `'>'` is itself a token. -/
lemma covered_gt_tail (xs : List Char) (h : Covered ('>' :: xs)) : Covered xs := by
  rcases covered_inv _ h with heq | ⟨t, r, ht, hr, heq⟩
  · exact absurd heq (by simp)
  · match t, ht, heq with
    | [], ht, _ => exact absurd ht (by decide)
    | c' :: t', ht, heq =>
      rw [List.cons_append, List.cons.injEq] at heq
      obtain ⟨h1, h2⟩ := heq
      subst h1
      rcases isTok_gt t' ht with rfl | rfl
      · rw [h2]; simpa using hr
      · rw [h2]
        exact Covered.cons ['>'] r (by decide) hr

/-- Evaluation of the bracket-atom matcher on a well-formed bracket body
followed by arbitrary text: the match is exactly `[inner]`. -/
lemma matchBracketAtom_eval (a : Char) (as r : List Char)
    (hni : ∀ c ∈ a :: as, c ≠ ']') :
    matchBracketAtom ((a :: as) ++ ']' :: r) = some ('[' :: ((a :: as) ++ [']']), r) := by
  have hpos : ∀ c ∈ a :: as, (fun c => c != ']') c = true := by
    intro c hc
    exact bne_iff_ne.mpr (hni c hc)
  have hneg : ¬((fun c => c != ']') ']' = true) := by decide
  have hdw : ((a :: as) ++ ']' :: r).dropWhile (fun c => c != ']') = ']' :: r := by
    rw [List.dropWhile_append_of_pos hpos]
    simp
  have htw : ((a :: as) ++ ']' :: r).takeWhile (fun c => c != ']') = a :: as := by
    rw [List.takeWhile_append_of_pos hpos]
    simp
  simp only [matchBracketAtom, hdw, htw, List.isEmpty_cons, Bool.false_eq_true,
    if_false]

/-- One scanning step on a nonempty covered text: the pattern matches, the
match is a prefix of the text, and the remainder is covered.  (The match need
not equal the first token of the covering decomposition — two adjacent `>`
tokens are consumed as one `>>` match — but the remainder is always covered.) -/
lemma covered_step (s : List Char) (h : Covered s) (hne : s ≠ []) :
    ∃ t r, matchAt s = some (t, r) ∧ s = t ++ r ∧ r.length < s.length ∧ Covered r := by
  rcases covered_inv s h with rfl | ⟨t, r, ht, hr, rfl⟩
  · exact absurd rfl hne
  rcases isTok_shapes t ht with ⟨inner, hinne, hni, rfl⟩ | hf |
    ⟨c1, c2, hd1, hd2, rfl⟩ | ⟨c, hc, rfl⟩
  · -- bracket atom
    match inner, hinne with
    | a :: as, _ =>
      refine ⟨'[' :: ((a :: as) ++ [']']), r, ?_, rfl, (by simp only [List.length_append, List.length_cons, List.length_nil]; omega), hr⟩
      have h1 : ('[' :: ((a :: as) ++ [']'])) ++ r = '[' :: ((a :: as) ++ ']' :: r) := by
        simp
      rw [h1]
      have h2 : matchAt ('[' :: ((a :: as) ++ ']' :: r)) =
          matchBracketAtom ((a :: as) ++ ']' :: r) := rfl
      rw [h2, matchBracketAtom_eval a as r hni]
  · -- fixed tokens
    simp only [fixedToks, List.mem_cons, List.not_mem_nil, or_false] at hf
    rcases hf with rfl | rfl | rfl | rfl | rfl | rfl | rfl
    · -- t = ['B']
      cases r with
      | nil => exact ⟨['B'], [], by decide, rfl, by decide, Covered.nil⟩
      | cons c2 r2 =>
        by_cases hc2 : c2 = 'r'
        · subst hc2
          exact absurd (covered_first _ _ hr) (by decide)
        · refine ⟨['B'], c2 :: r2, ?_, rfl, (by simp only [List.length_append, List.length_cons, List.length_nil]; omega), hr⟩
          have h0 : matchAt (['B'] ++ c2 :: r2) =
              if (c2 :: r2).head? = some 'r' then some (['B', 'r'], (c2 :: r2).tail)
              else some (['B'], c2 :: r2) := rfl
          rw [h0, if_neg (by simp [hc2])]
    · -- t = ['B', 'r']
      exact ⟨['B', 'r'], r, rfl, rfl, (by simp only [List.length_append, List.length_cons, List.length_nil]; omega), hr⟩
    · -- t = ['C']
      cases r with
      | nil => exact ⟨['C'], [], by decide, rfl, by decide, Covered.nil⟩
      | cons c2 r2 =>
        by_cases hc2 : c2 = 'l'
        · subst hc2
          exact absurd (covered_first _ _ hr) (by decide)
        · refine ⟨['C'], c2 :: r2, ?_, rfl, (by simp only [List.length_append, List.length_cons, List.length_nil]; omega), hr⟩
          have h0 : matchAt (['C'] ++ c2 :: r2) =
              if (c2 :: r2).head? = some 'l' then some (['C', 'l'], (c2 :: r2).tail)
              else some (['C'], c2 :: r2) := rfl
          rw [h0, if_neg (by simp [hc2])]
    · -- t = ['C', 'l']
      exact ⟨['C', 'l'], r, rfl, rfl, (by simp only [List.length_append, List.length_cons, List.length_nil]; omega), hr⟩
    · -- t = ['\n', '#']
      exact ⟨['\n', '#'], r, rfl, rfl, (by simp only [List.length_append, List.length_cons, List.length_nil]; omega), hr⟩
    · -- t = ['>']
      cases r with
      | nil => exact ⟨['>'], [], by decide, rfl, by decide, Covered.nil⟩
      | cons c2 r2 =>
        by_cases hc2 : c2 = '>'
        · subst hc2
          exact ⟨['>', '>'], r2, rfl, rfl, (by simp only [List.length_append, List.length_cons, List.length_nil]; omega), covered_gt_tail r2 hr⟩
        · refine ⟨['>'], c2 :: r2, ?_, rfl, (by simp only [List.length_append, List.length_cons, List.length_nil]; omega), hr⟩
          have h0 : matchAt (['>'] ++ c2 :: r2) =
              if (c2 :: r2).head? = some '>' then some (['>', '>'], (c2 :: r2).tail)
              else some (['>'], c2 :: r2) := rfl
          rw [h0, if_neg (by simp [hc2])]
    · -- t = ['>', '>']
      exact ⟨['>', '>'], r, rfl, rfl, (by simp only [List.length_append, List.length_cons, List.length_nil]; omega), hr⟩
  · -- t = ['%', c1, c2]
    refine ⟨['%', c1, c2], r, ?_, rfl, (by simp only [List.length_append, List.length_cons, List.length_nil]; omega), hr⟩
    have h0 : matchAt (['%', c1, c2] ++ r) =
        if c1.isDigit && c2.isDigit then some (['%', c1, c2], r) else none := rfl
    rw [h0, if_pos (by rw [hd1, hd2]; rfl)]
  · -- single characters and digits
    rcases Bool.or_eq_true_iff.mp hc with hcon | hdig
    · obtain ⟨h1, h2, h3⟩ := contains_singletok_ne c hcon
      refine ⟨[c], r, ?_, rfl, (by simp only [List.length_append, List.length_cons, List.length_nil]; omega), hr⟩
      show matchAt (c :: r) = some ([c], r)
      simp only [matchAt]
      rw [if_neg h1, if_neg h2, if_neg h3, if_pos hcon]
    · obtain ⟨h1, h2, h3, h4, h5, h6, h7⟩ := digit_ne c hdig
      refine ⟨[c], r, ?_, rfl, (by simp only [List.length_append, List.length_cons, List.length_nil]; omega), hr⟩
      show matchAt (c :: r) = some ([c], r)
      simp only [matchAt]
      rw [if_neg h1, if_neg h2, if_neg h3, if_neg (by intro hcon; rw [h4] at hcon; exact absurd hcon (by decide)), if_neg h5,
        if_neg h6, if_neg h7, if_pos hdig]

/-- On a covered text, the scan of `findall` concatenates back to the input,
for any sufficient fuel. -/
lemma findTokensF_concat (fuel : Nat) (s : List Char) (hf : s.length ≤ fuel)
    (h : Covered s) : tokensJoin (findTokensF fuel s) = s := by
  induction fuel generalizing s with
  | zero =>
    have hs : s = [] := List.length_eq_zero.mp (Nat.le_zero.mp hf)
    subst hs; rfl
  | succ fuel ih =>
    cases s with
    | nil => rfl
    | cons c cs =>
      obtain ⟨t, r, hm, heq, hlt, hcov⟩ := covered_step (c :: cs) h (by simp)
      have h0 : findTokensF (fuel + 1) (c :: cs) =
          match matchAt (c :: cs) with
          | some (tok, rest) => tok :: findTokensF fuel rest
          | none => findTokensF fuel cs := rfl
      rw [h0, hm]
      show t ++ tokensJoin (findTokensF fuel r) = c :: cs
      have hr : r.length ≤ fuel := by
        simp only [List.length_cons] at hlt hf
        omega
      rw [ih r hr hcov, heq]

/-- On a covered text, `findall`'s matches concatenate back to the input. -/
lemma findTokens_concat (s : List Char) (h : Covered s) :
    tokensJoin (findTokens s) = s :=
  findTokensF_concat s.length s Nat.le.refl h

/-- Appending strings appends their character lists. -/
lemma string_mk_append (a b : List Char) :
    String.mk a ++ String.mk b = String.mk (a ++ b) := rfl

/-- `String.join` of token texts is the text of the concatenation. -/
lemma string_join_map_mk (ts : List (List Char)) :
    String.join (ts.map (fun t => String.mk t)) = String.mk (tokensJoin ts) := by
  have haux : ∀ (l : List (List Char)) (a : List Char),
      List.foldl (fun r s => r ++ s) (String.mk a) (l.map (fun t => String.mk t)) =
        String.mk (a ++ tokensJoin l) := by
    intro l
    induction l with
    | nil => intro a; simp [tokensJoin]
    | cons t l ih =>
      intro a
      have h1 : tokensJoin (t :: l) = t ++ tokensJoin l := rfl
      simp only [List.map_cons, List.foldl_cons, string_mk_append, ih, h1,
        List.append_assoc]
  have h0 : String.join (ts.map (fun t => String.mk t)) =
      List.foldl (fun r s => r ++ s) (String.mk []) (ts.map (fun t => String.mk t)) := rfl
  rw [h0, haux]
  simp

/-- C1 (amended): for every input string that is a concatenation of matches of
the regex alternatives as they actually appear in the compiled pattern — i.e.
with the `#` alternative carrying the literal newline of the line-broken
pattern string, so that `#` is covered only as the two-character sequence
newline-`#` — `BasicSmilesTokenizer.tokenize` returns a sequence of substrings
whose left-to-right concatenation equals the input with no characters skipped;
in particular `"Br"` tokenizes as the single token `"Br"`. -/
theorem tokenize_concat_of_covered (s : String) (h : Covered s.data) :
    String.join (BasicSmilesTokenizer.tokenize s) = s := by
  have h0 : BasicSmilesTokenizer.tokenize s =
      (findTokens s.data).map (fun t => String.mk t) := rfl
  rw [h0, string_join_map_mk, findTokens_concat s.data h]

/-- Witness for C1 (amended) at the concrete covered input `"Br[C@H]1"`,
together with the `"Br"`-is-one-token part of the claim. -/
theorem tokenize_concat_of_covered_witness :
    Covered ("Br[C@H]1".data) ∧
      String.join (BasicSmilesTokenizer.tokenize "Br[C@H]1") = "Br[C@H]1" ∧
      BasicSmilesTokenizer.tokenize "Br" = ["Br"] := by
  have hcov : Covered ("Br[C@H]1".data) := by
    show Covered (['B', 'r'] ++ (['[', 'C', '@', 'H', ']'] ++ (['1'] ++ [])))
    exact Covered.cons _ _ (by decide) (Covered.cons _ _ (by decide)
      (Covered.cons _ _ (by decide) Covered.nil))
  exact ⟨hcov, tokenize_concat_of_covered "Br[C@H]1" hcov, by decide⟩

/-- Counterexample to C1 as stated: `"C#N"` is composed only of characters the
specification lists as covered (`C`, `#`, `N`), yet the tokenizer drops the
bare `#` — the pattern's `#` alternative actually requires a preceding literal
newline — so the concatenation of the tokens is `"CN"`, not the input. -/
theorem tokenize_drops_bare_hash :
    SpecCovered ("C#N".data) ∧ BasicSmilesTokenizer.tokenize "C#N" = ["C", "N"] ∧
      String.join (BasicSmilesTokenizer.tokenize "C#N") ≠ "C#N" := by
  refine ⟨?_, by decide, by decide⟩
  show SpecCovered (['C'] ++ (['#'] ++ (['N'] ++ [])))
  exact SpecCovered.cons _ _ (by decide) (SpecCovered.cons _ _ (by decide)
    (SpecCovered.cons _ _ (by decide) SpecCovered.nil))

/-- C2: `tokenize("CCC(CC)COC(=O)[C@H](C)N")` returns exactly the expected
token sequence, with `[C@H]` as one bracket-atom token. -/
theorem tokenize_example_molecule :
    BasicSmilesTokenizer.tokenize "CCC(CC)COC(=O)[C@H](C)N" =
      ["C", "C", "C", "(", "C", "C", ")", "C", "O", "C", "(", "=", "O", ")",
       "[C@H]", "(", "C", ")", "N"] := by decide

/-! ## Dictionary lemmas -/

/-- Every entry of `dictInsert d k v` is an entry of `d` or the pair `(k, v)`. -/
lemma mem_dictInsert {κ β : Type} [BEq κ] (d : List (κ × β)) (k : κ) (v : β)
    (q : κ × β) (hq : q ∈ dictInsert d k v) : q ∈ d ∨ q = (k, v) := by
  unfold dictInsert at hq
  split at hq
  · rcases List.mem_map.mp hq with ⟨p, hp, hpq⟩
    by_cases hb : (p.1 == k) = true
    · simp only [hb, if_true] at hpq
      exact Or.inr hpq.symm
    · simp only [hb, if_false] at hpq
      exact Or.inl (hpq ▸ hp)
  · rcases List.mem_append.mp hq with hq' | hq'
    · exact Or.inl hq'
    · exact Or.inr (List.mem_singleton.mp hq')

/-- Every entry of `ids_to_tokens` is a swapped entry of the vocabulary. -/
lemma mem_ids_to_tokens (vocab : List (String × Nat)) (q : Nat × String)
    (hq : q ∈ SmilesTokenizer.ids_to_tokens vocab) : (q.2, q.1) ∈ vocab := by
  suffices haux : ∀ (l : List (String × Nat)) (d : List (Nat × String)),
      q ∈ l.foldl (fun d p => dictInsert d p.2 p.1) d →
        q ∈ d ∨ (q.2, q.1) ∈ l by
    rcases haux vocab [] hq with h | h
    · simp at h
    · exact h
  intro l
  induction l with
  | nil =>
    intro d hd
    rw [List.foldl_nil] at hd
    exact Or.inl hd
  | cons p l ih =>
    intro d hd
    rw [List.foldl_cons] at hd
    rcases ih _ hd with h | h
    · rcases mem_dictInsert _ _ _ _ h with h' | h'
      · exact Or.inl h'
      · right
        rw [h']
        simp
    · exact Or.inr (List.mem_cons_of_mem _ h)

/-- Lookup in a dictionary with unique keys finds the stored pair. -/
lemma dictGet_of_mem_nodup {κ β : Type} [BEq κ] [LawfulBEq κ]
    (d : List (κ × β)) (k : κ) (v : β) (hmem : (k, v) ∈ d)
    (hnd : (d.map Prod.fst).Nodup) : dictGet d k = some v := by
  induction d with
  | nil => simp at hmem
  | cons p d ih =>
    rw [List.map_cons, List.nodup_cons] at hnd
    rcases List.mem_cons.mp hmem with heq | hmem'
    · rw [← heq]
      unfold dictGet
      rw [List.find?_cons_of_pos _ (by simp)]
      rfl
    · have hne : ¬(p.1 == k) = true := by
        intro hb
        have hk : p.1 = k := eq_of_beq hb
        exact hnd.1 (hk ▸ List.mem_map.mpr ⟨(k, v), hmem', rfl⟩)
      unfold dictGet
      have hstep : List.find? (fun q => q.1 == k) (p :: d) =
          List.find? (fun q => q.1 == k) d :=
        List.find?_cons_of_neg _ hne
      rw [hstep]
      exact ih hmem' hnd.2

/-- C3: `_convert_token_to_id` returns the vocabulary id when the token is
present, the unknown-token lookup result when it is not, and — assuming the
unknown token is present in the vocabulary — it always produces an id. -/
theorem convert_token_to_id_total (vocab : List (String × Nat))
    (unk_token token : String) (h : (dictGet vocab unk_token).isSome = true) :
    (∀ v, dictGet vocab token = some v →
        SmilesTokenizer.convert_token_to_id vocab unk_token token = some v) ∧
    (dictGet vocab token = none →
        SmilesTokenizer.convert_token_to_id vocab unk_token token =
          dictGet vocab unk_token) ∧
    (SmilesTokenizer.convert_token_to_id vocab unk_token token).isSome = true := by
  refine ⟨?_, ?_, ?_⟩
  · intro v hv
    simp [SmilesTokenizer.convert_token_to_id, hv]
  · intro hn
    simp [SmilesTokenizer.convert_token_to_id, hn]
  · cases hv : dictGet vocab token with
    | some v => simp [SmilesTokenizer.convert_token_to_id, hv]
    | none => simpa [SmilesTokenizer.convert_token_to_id, hv] using h

/-- Witness for C3 at a concrete vocabulary and an out-of-vocabulary token. -/
theorem convert_token_to_id_total_witness :
    (dictGet [("[UNK]", 0), ("C", 1)] "[UNK]").isSome = true ∧
      (SmilesTokenizer.convert_token_to_id [("[UNK]", 0), ("C", 1)] "[UNK]"
        "Zz").isSome = true := by
  have h := convert_token_to_id_total [("[UNK]", 0), ("C", 1)] "[UNK]" "Zz"
    (by decide)
  exact ⟨by decide, h.2.2⟩

/-- C4: for every id that is a key of the derived id-to-token mapping, and
under the invariant that the vocabulary's token strings are unique, converting
the id to its token and back yields the id. -/
theorem token_to_id_of_id_to_token (vocab : List (String × Nat))
    (unk_token : String) (i : Nat) (hnd : (vocab.map Prod.fst).Nodup)
    (hi : containsKey (SmilesTokenizer.ids_to_tokens vocab) i = true) :
    SmilesTokenizer.convert_token_to_id vocab unk_token
      (SmilesTokenizer.convert_id_to_token vocab unk_token i) = some i := by
  have hsome : (List.find? (fun p => p.1 == i)
      (SmilesTokenizer.ids_to_tokens vocab)).isSome := by
    unfold containsKey at hi
    rcases List.any_eq_true.mp hi with ⟨q, hq, hb⟩
    exact List.find?_isSome.mpr ⟨q, hq, hb⟩
  obtain ⟨p', hp'⟩ := Option.isSome_iff_exists.mp hsome
  have h4 : p'.1 = i := by
    have hb := List.find?_some hp'
    simpa using hb
  have hp'mem : p' ∈ SmilesTokenizer.ids_to_tokens vocab :=
    List.mem_of_find?_eq_some hp'
  have h2 : (p'.2, p'.1) ∈ vocab := mem_ids_to_tokens vocab p' hp'mem
  have h3 : dictGet vocab p'.2 = some p'.1 := dictGet_of_mem_nodup _ _ _ h2 hnd
  have hid : SmilesTokenizer.convert_id_to_token vocab unk_token i = p'.2 := by
    simp [SmilesTokenizer.convert_id_to_token, dictGet, hp']
  rw [hid]
  simp [SmilesTokenizer.convert_token_to_id, h3, h4]

/-- Witness for C4 at a concrete two-entry vocabulary and the valid id `1`. -/
theorem token_to_id_of_id_to_token_witness :
    (([("[PAD]", 0), ("C", 1)] : List (String × Nat)).map Prod.fst).Nodup ∧
      containsKey (SmilesTokenizer.ids_to_tokens [("[PAD]", 0), ("C", 1)]) 1 = true ∧
      SmilesTokenizer.convert_token_to_id [("[PAD]", 0), ("C", 1)] "[UNK]"
        (SmilesTokenizer.convert_id_to_token [("[PAD]", 0), ("C", 1)] "[UNK]" 1) =
        some 1 :=
  ⟨by decide, by decide,
    token_to_id_of_id_to_token [("[PAD]", 0), ("C", 1)] "[UNK]" 1 (by decide)
      (by decide)⟩

/-- C5: when the target length is at least the sequence's length,
`add_padding_tokens` appends (right) or prepends (left) pad ids until the
result has exactly the target length. -/
theorem add_padding_tokens_pads (pad_token_id : Nat) (token_ids : List Nat)
    (len : Nat) (h : token_ids.length ≤ len) :
    (∀ right,
      (SmilesTokenizer.add_padding_tokens pad_token_id token_ids len right).length
        = len) ∧
    SmilesTokenizer.add_padding_tokens pad_token_id token_ids len true =
      token_ids ++ List.replicate (len - token_ids.length) pad_token_id ∧
    SmilesTokenizer.add_padding_tokens pad_token_id token_ids len false =
      List.replicate (len - token_ids.length) pad_token_id ++ token_ids := by
  refine ⟨?_, rfl, rfl⟩
  intro right
  cases right <;>
    (simp only [SmilesTokenizer.add_padding_tokens, List.length_append,
      List.length_replicate, if_true, if_false, Bool.false_eq_true]; omega)

/-- Witness for C5 at the specification's example: pad id `0`, ids `[1,2,3]`,
target length `5`. -/
theorem add_padding_tokens_pads_witness :
    SmilesTokenizer.add_padding_tokens 0 [1, 2, 3] 5 true = [1, 2, 3, 0, 0] ∧
      SmilesTokenizer.add_padding_tokens 0 [1, 2, 3] 5 false = [0, 0, 1, 2, 3] ∧
      (SmilesTokenizer.add_padding_tokens 0 [1, 2, 3] 5 true).length = 5 := by
  have h := add_padding_tokens_pads 0 [1, 2, 3] 5 (by decide)
  exact ⟨by decide, by decide, h.1 true⟩

/-- C10 (implicit): when the target length is at most the sequence's length,
`add_padding_tokens` raises no error and returns the input unchanged — the
padding list `[pad] * (length - len(token_ids))` is empty for a non-positive
repetition count. -/
theorem add_padding_tokens_short_input (pad_token_id : Nat)
    (token_ids : List Nat) (len : Nat) (right : Bool)
    (h : len ≤ token_ids.length) :
    SmilesTokenizer.add_padding_tokens pad_token_id token_ids len right =
      token_ids := by
  have h0 : len - token_ids.length = 0 := Nat.sub_eq_zero_of_le h
  cases right <;> simp [SmilesTokenizer.add_padding_tokens, h0]

/-- Witness for C10 at a length strictly below and a length equal to the
input's length. -/
theorem add_padding_tokens_short_input_witness :
    SmilesTokenizer.add_padding_tokens 0 [1, 2, 3] 2 true = [1, 2, 3] ∧
      SmilesTokenizer.add_padding_tokens 0 [1, 2, 3] 3 false = [1, 2, 3] :=
  ⟨add_padding_tokens_short_input 0 [1, 2, 3] 2 true (by decide),
   add_padding_tokens_short_input 0 [1, 2, 3] 3 false (by decide)⟩

/-- C6: the single-sequence wrapper returns start id, input ids, end id; the
pair wrapper returns start, sequence A, separator, sequence B, separator; both
are pure functions of their list arguments (the embedding is a function on
immutable lists, so the inputs cannot be mutated), and the specification's
example `[5,6] ↦ [12,5,6,13]` holds. -/
theorem add_special_tokens_ids_spec (cls sep : Nat) (ids a b : List Nat) :
    SmilesTokenizer.add_special_tokens_ids_single_sequence cls sep ids =
      cls :: (ids ++ [sep]) ∧
    (SmilesTokenizer.add_special_tokens_ids_single_sequence cls sep ids).length =
      ids.length + 2 ∧
    SmilesTokenizer.add_special_tokens_ids_sequence_pair cls sep a b =
      cls :: (a ++ sep :: (b ++ [sep])) ∧
    (SmilesTokenizer.add_special_tokens_ids_sequence_pair cls sep a b).length =
      a.length + b.length + 3 ∧
    SmilesTokenizer.add_special_tokens_ids_single_sequence 12 13 [5, 6] =
      [12, 5, 6, 13] := by
  refine ⟨by simp [SmilesTokenizer.add_special_tokens_ids_single_sequence], ?_,
    by simp [SmilesTokenizer.add_special_tokens_ids_sequence_pair], ?_, by decide⟩
  · simp only [SmilesTokenizer.add_special_tokens_ids_single_sequence,
      List.length_append, List.length_cons, List.length_nil]
    omega
  · simp only [SmilesTokenizer.add_special_tokens_ids_sequence_pair,
      List.length_append, List.length_cons, List.length_nil]
    omega

/-! ## String reconstruction (C7) -/

/-- `" ".join` produces the characters of the space-interspersed token texts:
an independent characterization of the join stage by `List.intersperse`. -/
lemma joinWithSpaceSep_data (tokens : List String) :
    (joinWithSpaceSep tokens).data =
      tokensJoin (List.intersperse [' '] (tokens.map String.data)) := by
  induction tokens with
  | nil => rfl
  | cons t ts ih =>
    cases ts with
    | nil => simp [joinWithSpaceSep, List.intersperse, tokensJoin]
    | cons u us =>
      have h1 : joinWithSpaceSep (t :: u :: us) =
          t ++ " " ++ joinWithSpaceSep (u :: us) := rfl
      have h2 : List.intersperse [' '] ((t :: u :: us).map String.data) =
          t.data :: [' '] :: List.intersperse [' '] ((u :: us).map String.data) := rfl
      have h3 : ∀ (x : List Char) (xs : List (List Char)),
          tokensJoin (x :: xs) = x ++ tokensJoin xs := fun _ _ => rfl
      rw [h1, h2, h3, h3, String.data_append, String.data_append, ih]
      simp

/-- C7: `convert_tokens_to_string` joins the tokens with a single space (here
characterized independently via `List.intersperse`), then removes every
occurrence of the substring `" ##"` in one left-to-right pass, then trims
leading and trailing whitespace, in that order; the concrete cases show each
stage, `["", "##"]` showing that stripping happens after marker removal. -/
theorem convert_tokens_to_string_spec (tokens : List String) :
    SmilesTokenizer.convert_tokens_to_string tokens =
      String.mk (pyStrip (removeSubwordMarker
        (tokensJoin (List.intersperse [' '] (tokens.map String.data))))) ∧
    SmilesTokenizer.convert_tokens_to_string ["C", "##C"] = "CC" ∧
    SmilesTokenizer.convert_tokens_to_string ["", "##"] = "" ∧
    SmilesTokenizer.convert_tokens_to_string ["[CLS]", "C", "C", "[SEP]"] =
      "[CLS] C C [SEP]" := by
  refine ⟨?_, by decide, by decide, by decide⟩
  unfold SmilesTokenizer.convert_tokens_to_string
  rw [joinWithSpaceSep_data]

/-! ## Vocabulary loading (C8) -/

/-- `withIdxFrom` preserves length. -/
lemma withIdxFrom_length {α : Type} (i : Nat) (l : List α) :
    (withIdxFrom i l).length = l.length := by
  induction l generalizing i with
  | nil => rfl
  | cons x xs ih => simp [withIdxFrom, ih]

/-- The indices produced by `withIdxFrom` are consecutive from the start. -/
lemma withIdxFrom_map_snd {α : Type} (i : Nat) (l : List α) :
    (withIdxFrom i l).map Prod.snd = List.range' i l.length := by
  induction l generalizing i with
  | nil => rfl
  | cons x xs ih =>
    rw [List.length_cons, List.range'_succ]
    simp [withIdxFrom, ih]

/-- When every token about to be inserted is fresh for the accumulator and the
tokens are pairwise distinct, the `load_vocab` loop appends one entry per line,
keyed by the stripped line, valued by its index. -/
lemma loadVocabAux_fresh (rest : List String) :
    ∀ (d : List (String × Nat)) (i : Nat),
      (∀ t ∈ rest.map (fun l => rstripNewlines l), containsKey d t = false) →
      (rest.map (fun l => rstripNewlines l)).Nodup →
      loadVocabAux d i rest =
        d ++ withIdxFrom i (rest.map (fun l => rstripNewlines l)) := by
  induction rest with
  | nil =>
    intro d i _ _
    simp [loadVocabAux, withIdxFrom]
  | cons line rest ih =>
    intro d i h1 h2
    rw [List.map_cons] at h2
    have hfr : containsKey d (rstripNewlines line) = false :=
      h1 _ (by rw [List.map_cons]; exact List.mem_cons_self _ _)
    have hins : dictInsert d (rstripNewlines line) i =
        d ++ [(rstripNewlines line, i)] := by
      unfold dictInsert
      rw [hfr]
      rfl
    have hstep : loadVocabAux d i (line :: rest) =
        loadVocabAux (dictInsert d (rstripNewlines line) i) (i + 1) rest := rfl
    rw [hstep, hins, ih (d ++ [(rstripNewlines line, i)]) (i + 1) ?_ h2.of_cons]
    · rw [List.map_cons]
      simp [withIdxFrom]
    · intro t ht
      have hd : containsKey d t = false :=
        h1 t (by rw [List.map_cons]; exact List.mem_cons_of_mem _ ht)
      have hne : rstripNewlines line ≠ t := by
        rw [List.nodup_cons] at h2
        intro heq
        exact h2.1 (heq ▸ ht)
      unfold containsKey at hd ⊢
      rw [List.any_append, hd]
      simp [hne]

/-- C8 (amended): for a vocabulary file whose lines (after stripping trailing
newlines) are pairwise distinct, `load_vocab` yields one entry per line with
the zero-based line index as its id: the vocabulary equals the
specification-side description, has size `N`, and its ids are exactly
`0..N-1`. -/
theorem load_vocab_of_nodup (lines : List String)
    (hnd : (lines.map (fun l => rstripNewlines l)).Nodup) :
    load_vocab lines = vocabOfLinesSpec lines ∧
    (load_vocab lines).length = lines.length ∧
    (load_vocab lines).map Prod.snd = List.range lines.length := by
  have h0 : load_vocab lines =
      withIdxFrom 0 (lines.map (fun l => rstripNewlines l)) := by
    have h := loadVocabAux_fresh lines [] 0 (fun t _ => rfl) hnd
    simpa [load_vocab] using h
  refine ⟨h0, ?_, ?_⟩
  · rw [h0, withIdxFrom_length, List.length_map]
  · rw [h0, withIdxFrom_map_snd, List.length_map, List.range_eq_range']

/-- Witness for C8 (amended) at a concrete three-line vocabulary file. -/
theorem load_vocab_of_nodup_witness :
    ((["[PAD]\n", "[UNK]\n", "C"].map (fun l => rstripNewlines l)).Nodup) ∧
      load_vocab ["[PAD]\n", "[UNK]\n", "C"] =
        vocabOfLinesSpec ["[PAD]\n", "[UNK]\n", "C"] ∧
      (load_vocab ["[PAD]\n", "[UNK]\n", "C"]).length = 3 ∧
      (load_vocab ["[PAD]\n", "[UNK]\n", "C"]).map Prod.snd = List.range 3 := by
  have h := load_vocab_of_nodup ["[PAD]\n", "[UNK]\n", "C"] (by decide)
  exact ⟨by decide, h.1, h.2.1, h.2.2⟩

/-- Counterexample to C8 as stated: a two-line file whose lines carry the same
token produces a one-entry vocabulary whose only id is `1` — the dictionary
assignment overwrites the first entry — so neither the size nor the id range
is as claimed. -/
theorem load_vocab_duplicate_lines :
    load_vocab ["C\n", "C"] = [("C", 1)] ∧
      (load_vocab ["C\n", "C"]).length ≠ 2 ∧
      (load_vocab ["C\n", "C"]).map Prod.snd ≠ List.range 2 :=
  ⟨by decide, by decide, by decide⟩

/-! ## highest_unused_index (C9) -/

/-- Python `max` never fails on a nonempty list. -/
lemma maxNat?_cons_isSome (n : Nat) (l : List Nat) :
    (maxNat? (n :: l)).isSome = true := by
  cases h : maxNat? l <;> simp [maxNat?, h]

/-- C9 (implicit): the `highest_unused_index` computation of the constructor
succeeds — i.e. `max` is not applied to an empty list, which would raise —
exactly when some vocabulary token starts with `"[unused"`. -/
theorem highest_unused_index_isSome_iff (vocab : List (String × Nat)) :
    (SmilesTokenizer.highest_unused_index vocab).isSome =
      (vocab.map Prod.fst).any (fun v => startsWithUnused v) := by
  unfold SmilesTokenizer.highest_unused_index
  suffices haux : ∀ (ks : List String) (i : Nat),
      (maxNat? (((withIdxFrom i ks).filter (fun p => startsWithUnused p.1)).map
        (fun p => p.2))).isSome = ks.any (fun v => startsWithUnused v) by
    exact haux (vocab.map Prod.fst) 0
  intro ks
  induction ks with
  | nil => intro i; rfl
  | cons k ks ih =>
    intro i
    have h1 : withIdxFrom i (k :: ks) = (k, i) :: withIdxFrom (i + 1) ks := rfl
    by_cases hk : startsWithUnused k = true
    · rw [h1, List.filter_cons_of_pos (by exact hk), List.map_cons,
        maxNat?_cons_isSome]
      simp [List.any_cons, hk]
    · rw [h1, List.filter_cons_of_neg (by simpa using hk), ih (i + 1)]
      simp [List.any_cons, hk]
